import Mathlib

/-!
Shallow embedding of the qutrit quantum-kernel notebooks of the
Quantum-Neural-Networks repository.

The four notebooks (Seeds, Glass, Iris, Wine) share the same constant layer:
qutrit basis vectors `q0 q1 q2`, the eight Gell-Mann generator matrices
`gm1 .. gm8`, the generalized qutrit Hadamard `H`, and the entangling
operator `LZZ2 = kron(LZ2, LZ2)` with `LZ2 = gm3 + sqrt 3 * gm8`.

They differ in the encoding and kernel:
* Seeds notebook: `encoding` uses generators 1-4 with base `q0`; the kernel
  splits an 8-vector into two 4-chunks, encodes each, takes the Kronecker
  product, applies `expm(1j*LZZ2)`, and returns `real((psi1+ . psi2)^2)`.
* Glass notebook: same kernel shape, but the base vector is `H q0`.
* Iris notebook: base `H q0`; the kernel encodes the full 4-vector into both
  qutrit slots (no chunking), then entangles.
* Wine notebook: `encoding` uses generators 5-8 with base `q0`; the kernel
  tensors three encoded chunks of a 12-vector with no entangling gate, and
  (exactly as the notebook source reads) builds the middle and last chunks
  of the *second* state from `x1` rather than `x2`.

Machine floating point is idealized as exact real/complex arithmetic, and
`scipy.linalg.expm` as the analytic matrix exponential `NormedSpace.exp ℂ`.
-/

open Matrix
open scoped Kronecker

noncomputable section

namespace Qutrit

/-- Qutrit basis state |0>, from `q0 = np.array([[1],[0],[0]])`. -/
def q0 : Fin 3 → ℂ := ![1, 0, 0]

/-- Qutrit basis state |1>. -/
def q1 : Fin 3 → ℂ := ![0, 1, 0]

/-- Qutrit basis state |2>. -/
def q2 : Fin 3 → ℂ := ![0, 0, 1]

/-- Gell-Mann matrix 1: `np.kron(q0, q1.T) + np.kron(q1, q0.T)`. -/
def gm1 : Matrix (Fin 3) (Fin 3) ℂ := vecMulVec q0 q1 + vecMulVec q1 q0

/-- Gell-Mann matrix 2: `-1j * (np.kron(q0, q1.T) - np.kron(q1, q0.T))`. -/
def gm2 : Matrix (Fin 3) (Fin 3) ℂ :=
  (-Complex.I) • (vecMulVec q0 q1 - vecMulVec q1 q0)

/-- Gell-Mann matrix 3: `np.kron(q0, q0.T) - np.kron(q1, q1.T)`. -/
def gm3 : Matrix (Fin 3) (Fin 3) ℂ := vecMulVec q0 q0 - vecMulVec q1 q1

/-- Gell-Mann matrix 4: `np.kron(q0, q2.T) + np.kron(q2, q0.T)`. -/
def gm4 : Matrix (Fin 3) (Fin 3) ℂ := vecMulVec q0 q2 + vecMulVec q2 q0

/-- Gell-Mann matrix 5: `-1j * (np.kron(q0, q2.T) - np.kron(q2, q0.T))`. -/
def gm5 : Matrix (Fin 3) (Fin 3) ℂ :=
  (-Complex.I) • (vecMulVec q0 q2 - vecMulVec q2 q0)

/-- Gell-Mann matrix 6: `np.kron(q1, q2.T) + np.kron(q2, q1.T)`. -/
def gm6 : Matrix (Fin 3) (Fin 3) ℂ := vecMulVec q1 q2 + vecMulVec q2 q1

/-- Gell-Mann matrix 7: `-1j * (np.kron(q1, q2.T) - np.kron(q2, q1.T))`. -/
def gm7 : Matrix (Fin 3) (Fin 3) ℂ :=
  (-Complex.I) • (vecMulVec q1 q2 - vecMulVec q2 q1)

/-- Gell-Mann matrix 8:
`1/np.sqrt(3) * (np.kron(q0, q0.T) + np.kron(q1, q1.T) - 2*np.kron(q2, q2.T))`. -/
def gm8 : Matrix (Fin 3) (Fin 3) ℂ :=
  (((Real.sqrt 3)⁻¹ : ℝ) : ℂ) •
    (vecMulVec q0 q0 + vecMulVec q1 q1 - (2 : ℂ) • vecMulVec q2 q2)

/-- The list `generators = [gm1, ..., gm8]` shared by all notebooks. -/
def generators : Fin 8 → Matrix (Fin 3) (Fin 3) ℂ :=
  ![gm1, gm2, gm3, gm4, gm5, gm6, gm7, gm8]

/-- The generalized Hadamard operator for qutrits:
`(1/np.sqrt(3)) * [[1,1,1],[1,e^{2pi i/3},e^{-2pi i/3}],[1,e^{-2pi i/3},e^{2pi i/3}]]`. -/
def H : Matrix (Fin 3) (Fin 3) ℂ :=
  (((Real.sqrt 3)⁻¹ : ℝ) : ℂ) •
    Matrix.of
      ![![1, 1, 1],
        ![1, Complex.exp (2 * (Real.pi : ℂ) * Complex.I / 3),
            Complex.exp (-(2 * (Real.pi : ℂ) * Complex.I / 3))],
        ![1, Complex.exp (-(2 * (Real.pi : ℂ) * Complex.I / 3)),
            Complex.exp (2 * (Real.pi : ℂ) * Complex.I / 3)]]

/-- The loop body of every `encoding` variant: the sum
`sum_{i<4} 1j * vector[i] * generators[sel i]`, where `sel` records which
four of the eight generators the notebook indexes. -/
def gmSum (sel : Fin 4 → Fin 8) (v : Fin 4 → ℝ) : Matrix (Fin 3) (Fin 3) ℂ :=
  ∑ i : Fin 4, (Complex.I * (v i : ℂ)) • generators (sel i)

/-- Selector for `generators[i]` (Seeds, Glass, Iris notebooks). -/
def lowSel : Fin 4 → Fin 8 := Fin.castLE (by norm_num)

/-- Selector for `generators[i+4]` (Wine notebook). -/
def highSel : Fin 4 → Fin 8 := fun i => i.addNat 4

/-- Seeds-notebook encoding: `np.dot(expm(sum), q0)` with generators 1-4. -/
def encoding (v : Fin 4 → ℝ) : Fin 3 → ℂ :=
  (NormedSpace.exp ℂ (gmSum lowSel v)).mulVec q0

/-- Glass/Iris-notebook encoding: `np.dot(expm(sum), np.dot(H, q0))` with
generators 1-4. -/
def encodingH (v : Fin 4 → ℝ) : Fin 3 → ℂ :=
  (NormedSpace.exp ℂ (gmSum lowSel v)).mulVec (H.mulVec q0)

/-- Wine-notebook encoding: `np.dot(expm(sum), q0)` with `generators[i+4]`,
that is generators 5-8. -/
def encodingWine (v : Fin 4 → ℝ) : Fin 3 → ℂ :=
  (NormedSpace.exp ℂ (gmSum highSel v)).mulVec q0

/-- `LZ2 = gm3 + np.sqrt(3)*gm8`. -/
def LZ2 : Matrix (Fin 3) (Fin 3) ℂ := gm3 + ((Real.sqrt 3 : ℝ) : ℂ) • gm8

/-- `LZZ2 = np.kron(LZ2, LZ2)`, the fixed 9x9 entangling operator. -/
def LZZ2 : Matrix (Fin 3 × Fin 3) (Fin 3 × Fin 3) ℂ := LZ2 ⊗ₖ LZ2

/-- Kronecker product of two 3-vectors, as `np.kron` on column vectors. -/
def kronVec (a b : Fin 3 → ℂ) : Fin 3 × Fin 3 → ℂ := fun p => a p.1 * b p.2

/-- Kronecker product of three 3-vectors,
as `np.kron(np.kron(a, b), c)` on column vectors. -/
def kronVec3 (a b c : Fin 3 → ℂ) : (Fin 3 × Fin 3) × Fin 3 → ℂ :=
  fun p => a p.1.1 * b p.1.2 * c p.2

/-- The applied entangling unitary `expm(1j*LZZ2)`. -/
def entangleGate : Matrix (Fin 3 × Fin 3) (Fin 3 × Fin 3) ℂ :=
  NormedSpace.exp ℂ (Complex.I • LZZ2)

/-- First four components `x[:4]` of an 8-feature vector. -/
def loHalf (x : Fin 8 → ℝ) : Fin 4 → ℝ := fun i => x (Fin.castLE (by norm_num) i)

/-- Last four components `x[4:]` of an 8-feature vector. -/
def hiHalf (x : Fin 8 → ℝ) : Fin 4 → ℝ := fun i => x (i.addNat 4)

/-- The joint entangled state the Seeds-notebook kernel builds from one
8-feature argument: `np.dot(expm(1j*LZZ2), np.kron(encoding(x[:4]), encoding(x[4:])))`. -/
def psiSeeds (x : Fin 8 → ℝ) : Fin 3 × Fin 3 → ℂ :=
  entangleGate.mulVec (kronVec (encoding (loHalf x)) (encoding (hiHalf x)))

/-- The Seeds-notebook kernel:
`np.real(np.dot(kron1.conj().T, kron2)**2)[0][0]`. -/
def kernelSeeds (x1 x2 : Fin 8 → ℝ) : ℝ :=
  ((star (psiSeeds x1) ⬝ᵥ psiSeeds x2) ^ 2).re

/-- The Glass-notebook joint state; identical to the Seeds one except that
the encoding uses base `H q0`. -/
def psiGlass (x : Fin 8 → ℝ) : Fin 3 × Fin 3 → ℂ :=
  entangleGate.mulVec (kronVec (encodingH (loHalf x)) (encodingH (hiHalf x)))

/-- The Glass-notebook kernel. -/
def kernelGlass (x1 x2 : Fin 8 → ℝ) : ℝ :=
  ((star (psiGlass x1) ⬝ᵥ psiGlass x2) ^ 2).re

/-- The Iris-notebook kernel on 4-feature vectors: both qutrit slots encode
the same full argument (`qutrit_1 = encoding(x1); qutrit_2 = encoding(x1)`),
then the entangling gate is applied; likewise for `x2`. -/
def kernelIris (x1 x2 : Fin 4 → ℝ) : ℝ :=
  let qutritOne := encodingH x1
  let qutritTwo := encodingH x1
  let kron1 := entangleGate.mulVec (kronVec qutritOne qutritTwo)
  let qutritOne' := encodingH x2
  let qutritTwo' := encodingH x2
  let kron2 := entangleGate.mulVec (kronVec qutritOne' qutritTwo')
  ((star kron1 ⬝ᵥ kron2) ^ 2).re

/-- Chunk `x[:4]` of a 12-feature vector. -/
def chunk1 (x : Fin 12 → ℝ) : Fin 4 → ℝ := fun i => x (Fin.castLE (by norm_num) i)

/-- Chunk `x[4:8]` of a 12-feature vector. -/
def chunk2 (x : Fin 12 → ℝ) : Fin 4 → ℝ :=
  fun i => x (Fin.castLE (by norm_num) (i.addNat 4))

/-- Chunk `x[8:12]` of a 12-feature vector. -/
def chunk3 (x : Fin 12 → ℝ) : Fin 4 → ℝ := fun i => x (i.addNat 8)

/-- The Wine-notebook kernel, transcribed exactly: the second joint state is
`kron(kron(encoding(x2[:4]), encoding(x1[4:8])), encoding(x1[8:12]))` - its
middle and last chunks come from `x1`, as in the notebook source. -/
def kernelWine (x1 x2 : Fin 12 → ℝ) : ℝ :=
  let enc1 := encodingWine (chunk1 x1)
  let enc2 := encodingWine (chunk2 x1)
  let enc3 := encodingWine (chunk3 x1)
  let kron1 := kronVec3 enc1 enc2 enc3
  let enc1' := encodingWine (chunk1 x2)
  let enc2' := encodingWine (chunk2 x1)
  let enc3' := encodingWine (chunk3 x1)
  let kron2 := kronVec3 enc1' enc2' enc3'
  ((star kron1 ⬝ᵥ kron2) ^ 2).re

/-- The Wine kernel as the spec describes it (comparison definition for the
refinement claim): encode `x1` into joint state psi1 and `x2` - all three of
its chunks - into psi2, and return `real((psi1+ . psi2)^2)`. -/
def kernelWineSpec (x1 x2 : Fin 12 → ℝ) : ℝ :=
  let psi1 := kronVec3 (encodingWine (chunk1 x1)) (encodingWine (chunk2 x1))
    (encodingWine (chunk3 x1))
  let psi2 := kronVec3 (encodingWine (chunk1 x2)) (encodingWine (chunk2 x2))
    (encodingWine (chunk3 x2))
  ((star psi1 ⬝ᵥ psi2) ^ 2).re

/-- `kernel_matrix(A, B) = [[kernel(a, b) for b in B] for a in A]`
for the Seeds-notebook kernel. -/
def kernel_matrix (A B : List (Fin 8 → ℝ)) : List (List ℝ) :=
  A.map fun a => B.map fun b => kernelSeeds a b

/-- Total embedding of `encoding` on a raw Python list: the loop reads
`vector[0] .. vector[3]` unconditionally, so each read is `List.getElem?`
and any out-of-bounds read aborts the computation with `none`. -/
def encodingList (v : List ℝ) : Option (Fin 3 → ℂ) :=
  (v[0]?).bind fun (a : ℝ) =>
    (v[1]?).bind fun (b : ℝ) =>
      (v[2]?).bind fun (c : ℝ) =>
        (v[3]?).map fun (d : ℝ) =>
          (NormedSpace.exp ℂ
              ((Complex.I * (a : ℂ)) • gm1 + (Complex.I * (b : ℂ)) • gm2 +
                (Complex.I * (c : ℂ)) • gm3 + (Complex.I * (d : ℂ)) • gm4)).mulVec
            q0

end Qutrit

end

namespace Qutrit

/-! ### Explicit entry forms of the constant matrices -/

theorem gm1_eq : gm1 = !![0, 1, 0; 1, 0, 0; 0, 0, 0] := by
  ext i j
  fin_cases i <;> fin_cases j <;>
    simp [gm1, vecMulVec_apply, q0, q1, vecHead, vecTail]

theorem gm2_eq : gm2 = !![0, -Complex.I, 0; Complex.I, 0, 0; 0, 0, 0] := by
  ext i j
  fin_cases i <;> fin_cases j <;>
    simp [gm2, vecMulVec_apply, q0, q1, vecHead, vecTail]

theorem gm3_eq : gm3 = Matrix.diagonal ![1, -1, 0] := by
  ext i j
  fin_cases i <;> fin_cases j <;>
    simp [gm3, vecMulVec_apply, q0, q1, Matrix.diagonal]

theorem gm4_eq : gm4 = !![0, 0, 1; 0, 0, 0; 1, 0, 0] := by
  ext i j
  fin_cases i <;> fin_cases j <;>
    simp [gm4, vecMulVec_apply, q0, q2, vecHead, vecTail]

theorem gm5_eq : gm5 = !![0, 0, -Complex.I; 0, 0, 0; Complex.I, 0, 0] := by
  ext i j
  fin_cases i <;> fin_cases j <;>
    simp [gm5, vecMulVec_apply, q0, q2, vecHead, vecTail]

theorem gm6_eq : gm6 = !![0, 0, 0; 0, 0, 1; 0, 1, 0] := by
  ext i j
  fin_cases i <;> fin_cases j <;>
    simp [gm6, vecMulVec_apply, q1, q2, vecHead, vecTail]

theorem gm7_eq : gm7 = !![0, 0, 0; 0, 0, -Complex.I; 0, Complex.I, 0] := by
  ext i j
  fin_cases i <;> fin_cases j <;>
    simp [gm7, vecMulVec_apply, q1, q2, vecHead, vecTail]

theorem gm8_eq : gm8 = Matrix.diagonal
    ![(((Real.sqrt 3)⁻¹ : ℝ) : ℂ), (((Real.sqrt 3)⁻¹ : ℝ) : ℂ),
      -2 * (((Real.sqrt 3)⁻¹ : ℝ) : ℂ)] := by
  ext i j
  fin_cases i <;> fin_cases j <;>
    (simp [gm8, vecMulVec_apply, q0, q1, q2, Matrix.diagonal, vecHead, vecTail]; try ring)

/-! ### Every generator is Hermitian -/

theorem gm1_herm : gm1ᴴ = gm1 := by
  rw [gm1_eq]; ext i j
  fin_cases i <;> fin_cases j <;> simp [Matrix.conjTranspose_apply, vecHead, vecTail]

theorem gm2_herm : gm2ᴴ = gm2 := by
  rw [gm2_eq]; ext i j
  fin_cases i <;> fin_cases j <;> simp [Matrix.conjTranspose_apply, vecHead, vecTail]

theorem gm3_herm : gm3ᴴ = gm3 := by
  rw [gm3_eq]; ext i j
  fin_cases i <;> fin_cases j <;> simp [Matrix.conjTranspose_apply, Matrix.diagonal, vecHead, vecTail]

theorem gm4_herm : gm4ᴴ = gm4 := by
  rw [gm4_eq]; ext i j
  fin_cases i <;> fin_cases j <;> simp [Matrix.conjTranspose_apply, vecHead, vecTail]

theorem gm5_herm : gm5ᴴ = gm5 := by
  rw [gm5_eq]; ext i j
  fin_cases i <;> fin_cases j <;> simp [Matrix.conjTranspose_apply, vecHead, vecTail]

theorem gm6_herm : gm6ᴴ = gm6 := by
  rw [gm6_eq]; ext i j
  fin_cases i <;> fin_cases j <;> simp [Matrix.conjTranspose_apply, vecHead, vecTail]

theorem gm7_herm : gm7ᴴ = gm7 := by
  rw [gm7_eq]; ext i j
  fin_cases i <;> fin_cases j <;> simp [Matrix.conjTranspose_apply, vecHead, vecTail]

theorem gm8_herm : gm8ᴴ = gm8 := by
  rw [gm8_eq]; ext i j
  fin_cases i <;> fin_cases j <;>
    simp [Matrix.conjTranspose_apply, Matrix.diagonal, Complex.conj_ofReal, vecHead, vecTail]

theorem generators_hermitian (k : Fin 8) : (generators k)ᴴ = generators k := by
  fin_cases k
  · simpa [generators] using gm1_herm
  · simpa [generators] using gm2_herm
  · simpa [generators] using gm3_herm
  · simpa [generators] using gm4_herm
  · simpa [generators] using gm5_herm
  · simpa [generators] using gm6_herm
  · simpa [generators] using gm7_herm
  · simpa [generators] using gm8_herm

/-! ### Exponentials of skew-Hermitian matrices are unitary -/

theorem exp_skew_unitary {n : Type*} [Fintype n] [DecidableEq n]
    (S : Matrix n n ℂ) (h : Sᴴ = -S) :
    (NormedSpace.exp ℂ S)ᴴ * NormedSpace.exp ℂ S = 1 ∧
      NormedSpace.exp ℂ S * (NormedSpace.exp ℂ S)ᴴ = 1 := by
  have hc : (NormedSpace.exp ℂ S)ᴴ = NormedSpace.exp ℂ (-S) := by
    rw [← Matrix.exp_conjTranspose, h]
  constructor
  · rw [hc, ← Matrix.exp_add_of_commute ℂ (-S) S ((Commute.refl S).neg_left),
      neg_add_cancel, NormedSpace.exp_zero]
  · rw [hc, ← Matrix.exp_add_of_commute ℂ S (-S) ((Commute.refl S).neg_right),
      add_neg_cancel, NormedSpace.exp_zero]

theorem unitary_dot {n : Type*} [Fintype n] [DecidableEq n]
    (U : Matrix n n ℂ) (hU : Uᴴ * U = 1) (x y : n → ℂ) :
    star (U.mulVec x) ⬝ᵥ U.mulVec y = star x ⬝ᵥ y := by
  rw [Matrix.star_mulVec, Matrix.dotProduct_mulVec, Matrix.vecMul_vecMul, hU,
    Matrix.vecMul_one]

theorem gmSum_skew (sel : Fin 4 → Fin 8) (v : Fin 4 → ℝ) :
    (gmSum sel v)ᴴ = -(gmSum sel v) := by
  unfold gmSum
  rw [Matrix.conjTranspose_sum, ← Finset.sum_neg_distrib]
  refine Finset.sum_congr rfl fun i _ => ?_
  rw [Matrix.conjTranspose_smul, generators_hermitian, ← neg_smul]
  congr 1
  simp [Complex.ext_iff]

end Qutrit

namespace Qutrit

/-! ### Unit norm of the base vectors and encoded states -/

theorem q0_dot : star q0 ⬝ᵥ q0 = 1 := by
  simp [q0, dotProduct, Fin.sum_univ_three]

theorem sqrt3_mul_inv : ((Real.sqrt 3 : ℝ) : ℂ) * (((Real.sqrt 3)⁻¹ : ℝ) : ℂ) = 1 := by
  norm_cast
  rw [mul_inv_cancel₀ (Real.sqrt_ne_zero'.mpr (by norm_num))]

theorem sqrt3_inv_sq : (((Real.sqrt 3)⁻¹ : ℝ) : ℂ) * (((Real.sqrt 3)⁻¹ : ℝ) : ℂ) = 1 / 3 := by
  norm_cast
  rw [← mul_inv, Real.mul_self_sqrt (by norm_num)]
  norm_num

theorem Hq0_eq : H.mulVec q0 = fun _ => (((Real.sqrt 3)⁻¹ : ℝ) : ℂ) := by
  funext i
  rw [H, Matrix.smul_mulVec_assoc]
  fin_cases i <;>
    simp [Matrix.mulVec, dotProduct, Fin.sum_univ_three, q0, vecHead, vecTail]

theorem Hq0_dot : star (H.mulVec q0) ⬝ᵥ H.mulVec q0 = 1 := by
  rw [Hq0_eq]
  simp only [dotProduct, Fin.sum_univ_three, Pi.star_apply, RCLike.star_def,
    Complex.conj_ofReal]
  rw [sqrt3_inv_sq]
  norm_num

theorem encoding_unit (v : Fin 4 → ℝ) : star (encoding v) ⬝ᵥ encoding v = 1 := by
  unfold encoding
  rw [unitary_dot _ (exp_skew_unitary _ (gmSum_skew lowSel v)).1, q0_dot]

theorem encodingH_unit (v : Fin 4 → ℝ) : star (encodingH v) ⬝ᵥ encodingH v = 1 := by
  unfold encodingH
  rw [unitary_dot _ (exp_skew_unitary _ (gmSum_skew lowSel v)).1, Hq0_dot]

theorem encodingWine_unit (v : Fin 4 → ℝ) :
    star (encodingWine v) ⬝ᵥ encodingWine v = 1 := by
  unfold encodingWine
  rw [unitary_dot _ (exp_skew_unitary _ (gmSum_skew highSel v)).1, q0_dot]

/-! ### Inner products factor over Kronecker products of vectors -/

theorem kronVec_dot (a b a' b' : Fin 3 → ℂ) :
    star (kronVec a b) ⬝ᵥ kronVec a' b' = (star a ⬝ᵥ a') * (star b ⬝ᵥ b') := by
  simp only [dotProduct, kronVec, Pi.star_apply, star_mul', Fintype.sum_prod_type]
  rw [Finset.sum_mul]
  refine Finset.sum_congr rfl fun i _ => ?_
  rw [Finset.mul_sum]
  refine Finset.sum_congr rfl fun j _ => ?_
  ring

theorem kron_dot_gen {m n : Type*} [Fintype m] [Fintype n]
    (a a' : m → ℂ) (b b' : n → ℂ) :
    (star fun p : m × n => a p.1 * b p.2) ⬝ᵥ (fun p : m × n => a' p.1 * b' p.2) =
      (star a ⬝ᵥ a') * (star b ⬝ᵥ b') := by
  simp only [dotProduct, Pi.star_apply, star_mul', Fintype.sum_prod_type]
  rw [Finset.sum_mul]
  refine Finset.sum_congr rfl fun i _ => ?_
  rw [Finset.mul_sum]
  refine Finset.sum_congr rfl fun j _ => ?_
  ring

theorem kronVec3_dot (a b c a' b' c' : Fin 3 → ℂ) :
    star (kronVec3 a b c) ⬝ᵥ kronVec3 a' b' c' =
      (star a ⬝ᵥ a') * (star b ⬝ᵥ b') * (star c ⬝ᵥ c') := by
  have h2 := kron_dot_gen (fun q : Fin 3 × Fin 3 => a q.1 * b q.2)
    (fun q : Fin 3 × Fin 3 => a' q.1 * b' q.2) c c'
  rw [kron_dot_gen a a' b b'] at h2
  exact h2

/-! ### The entangling operator is a diagonal matrix and its exponential
is unitary -/

/-- The diagonal of `LZ2` as printed by the notebooks: `[2, 0, -2]`. -/
def dLZ : Fin 3 → ℂ := ![2, 0, -2]

theorem LZ2_eq : LZ2 = Matrix.diagonal dLZ := by
  rw [LZ2, gm3_eq, gm8_eq, ← Matrix.diagonal_smul, Matrix.diagonal_add]
  have hv : (fun i => ![(1 : ℂ), -1, 0] i +
      (((Real.sqrt 3 : ℝ) : ℂ) • ![(((Real.sqrt 3)⁻¹ : ℝ) : ℂ),
        (((Real.sqrt 3)⁻¹ : ℝ) : ℂ), -2 * (((Real.sqrt 3)⁻¹ : ℝ) : ℂ)]) i) = dLZ := by
    funext i
    have h3 : ((Real.sqrt 3 : ℝ) : ℂ) ≠ 0 := by
      norm_cast
      exact Real.sqrt_ne_zero'.mpr (by norm_num)
    fin_cases i <;> simp [dLZ, vecHead, vecTail] <;> push_cast <;>
      (try field_simp) <;> (try norm_num)
  rw [hv]

/-- The diagonal of `LZZ2`. -/
def dLZZ : Fin 3 × Fin 3 → ℂ := fun p => dLZ p.1 * dLZ p.2

theorem LZZ2_eq : LZZ2 = Matrix.diagonal dLZZ := by
  rw [LZZ2, LZ2_eq, Matrix.diagonal_kronecker_diagonal]
  rfl

theorem smul_LZZ2_skew : (Complex.I • LZZ2)ᴴ = -(Complex.I • LZZ2) := by
  have hstar : star dLZZ = dLZZ := by
    funext p
    rcases p with ⟨i, j⟩
    fin_cases i <;> fin_cases j <;>
      simp [dLZZ, dLZ, Pi.star_apply, vecHead, vecTail]
  have hD : LZZ2ᴴ = LZZ2 := by
    rw [LZZ2_eq, Matrix.diagonal_conjTranspose, hstar]
  rw [Matrix.conjTranspose_smul, hD, Complex.star_def, Complex.conj_I, neg_smul]

theorem entangle_unitary :
    entangleGateᴴ * entangleGate = 1 ∧ entangleGate * entangleGateᴴ = 1 :=
  exp_skew_unitary _ smul_LZZ2_skew

theorem psiSeeds_unit (x : Fin 8 → ℝ) : star (psiSeeds x) ⬝ᵥ psiSeeds x = 1 := by
  unfold psiSeeds
  rw [unitary_dot _ entangle_unitary.1, kronVec_dot, encoding_unit, encoding_unit,
    one_mul]

theorem psiGlass_unit (x : Fin 8 → ℝ) : star (psiGlass x) ⬝ᵥ psiGlass x = 1 := by
  unfold psiGlass
  rw [unitary_dot _ entangle_unitary.1, kronVec_dot, encodingH_unit, encodingH_unit,
    one_mul]

end Qutrit

namespace Qutrit

/-! ### Kernel self-evaluation and symmetry -/

theorem re_sq_star (c : ℂ) : (star c ^ 2).re = (c ^ 2).re := by
  rw [← star_pow, Complex.star_def, Complex.conj_re]

theorem kernelSeeds_self (x : Fin 8 → ℝ) : kernelSeeds x x = 1 := by
  unfold kernelSeeds
  rw [psiSeeds_unit]
  norm_num

theorem kernelSeeds_symm (x1 x2 : Fin 8 → ℝ) :
    kernelSeeds x1 x2 = kernelSeeds x2 x1 := by
  unfold kernelSeeds
  rw [Matrix.star_dotProduct]
  exact re_sq_star _

theorem kernelGlass_symm (x1 x2 : Fin 8 → ℝ) :
    kernelGlass x1 x2 = kernelGlass x2 x1 := by
  unfold kernelGlass
  rw [Matrix.star_dotProduct]
  exact re_sq_star _

theorem kernelIris_symm (x1 x2 : Fin 4 → ℝ) :
    kernelIris x1 x2 = kernelIris x2 x1 := by
  unfold kernelIris
  dsimp only
  rw [Matrix.star_dotProduct]
  exact re_sq_star _

theorem kernelWine_symm (x1 x2 : Fin 12 → ℝ) :
    kernelWine x1 x2 = kernelWine x2 x1 := by
  unfold kernelWine
  dsimp only
  rw [kronVec3_dot, kronVec3_dot, encodingWine_unit (chunk2 x1),
    encodingWine_unit (chunk3 x1), encodingWine_unit (chunk2 x2),
    encodingWine_unit (chunk3 x2), mul_one, mul_one, mul_one, mul_one,
    Matrix.star_dotProduct]
  exact re_sq_star _

/-- C1: for every 8-feature vector `x` the Seeds-notebook two-qutrit kernel
satisfies `kernel(x, x) = 1`, and consequently every diagonal entry of
`kernel_matrix(A, A)` equals 1 for every sequence `A` of such vectors. -/
theorem kernel_self_one :
    (∀ x : Fin 8 → ℝ, kernelSeeds x x = 1) ∧
    ∀ (A : List (Fin 8 → ℝ)) (i : ℕ) (h1 : i < (kernel_matrix A A).length)
      (h2 : i < ((kernel_matrix A A).get ⟨i, h1⟩).length),
      ((kernel_matrix A A).get ⟨i, h1⟩).get ⟨i, h2⟩ = 1 := by
  refine ⟨kernelSeeds_self, fun A i h1 h2 => ?_⟩
  have hA : i < A.length := by simpa [kernel_matrix] using h1
  simp [kernel_matrix, List.get_eq_getElem, kernelSeeds_self]

/-- Witness for C1: the concrete singleton list of the zero feature vector. -/
theorem kernel_self_one_witness :
    kernelSeeds (fun _ => 0) (fun _ => 0) = 1 ∧
    ((kernel_matrix [fun _ => (0 : ℝ)] [fun _ => (0 : ℝ)]).get
        ⟨0, by simp [kernel_matrix]⟩).get ⟨0, by simp [kernel_matrix]⟩ = 1 :=
  ⟨kernel_self_one.1 _,
    kernel_self_one.2 [fun _ => 0] 0 (by simp [kernel_matrix])
      (by simp [kernel_matrix])⟩

/-- C3: each kernel variant (Seeds, Glass, Iris, Wine) is symmetric under
swapping its two arguments. For the first three this is the conjugation
symmetry of the inner product; for the Wine variant the two joint states
share their middle and last chunks, which are unit vectors, so the inner
product degenerates to a single-chunk inner product and the same argument
applies. -/
theorem kernel_symmetric :
    (∀ x1 x2 : Fin 8 → ℝ, kernelSeeds x1 x2 = kernelSeeds x2 x1) ∧
    (∀ x1 x2 : Fin 8 → ℝ, kernelGlass x1 x2 = kernelGlass x2 x1) ∧
    (∀ x1 x2 : Fin 4 → ℝ, kernelIris x1 x2 = kernelIris x2 x1) ∧
    (∀ x1 x2 : Fin 12 → ℝ, kernelWine x1 x2 = kernelWine x2 x1) :=
  ⟨kernelSeeds_symm, kernelGlass_symm, kernelIris_symm, kernelWine_symm⟩

/-- C5: the encoded single-qutrit state has unit norm (its Hermitian inner
product with itself is exactly 1) for arbitrary real feature inputs, in
every encoding variant: base `q0` with generators 1-4 (Seeds), base `H q0`
(Glass/Iris), and base `q0` with generators 5-8 (Wine). -/
theorem encoding_unit_norm :
    (∀ v : Fin 4 → ℝ, star (encoding v) ⬝ᵥ encoding v = 1) ∧
    (∀ v : Fin 4 → ℝ, star (encodingH v) ⬝ᵥ encodingH v = 1) ∧
    (∀ v : Fin 4 → ℝ, star (encodingWine v) ⬝ᵥ encodingWine v = 1) :=
  ⟨encoding_unit, encodingH_unit, encodingWine_unit⟩

theorem gmSum_zero (sel : Fin 4 → Fin 8) : gmSum sel (fun _ => 0) = 0 := by
  simp [gmSum]

/-- C6: encoding the all-zero feature vector returns the unrotated base
vector unchanged, in each encoding variant (base `q0` and base `H q0`),
because the matrix exponential of the zero matrix is the identity. -/
theorem encoding_zero_eq_base :
    encoding (fun _ => 0) = q0 ∧ encodingH (fun _ => 0) = H.mulVec q0 ∧
      encodingWine (fun _ => 0) = q0 := by
  refine ⟨?_, ?_, ?_⟩ <;>
    simp [encoding, encodingH, encodingWine, gmSum_zero, NormedSpace.exp_zero,
      Matrix.one_mulVec]

/-- C10: the Iris-notebook kernel equals
`real((E(enc(x1) kron enc(x1)))+ . (E(enc(x2) kron enc(x2))))^2)` with
`E = expm(1j*LZZ2)`: each joint state is the Kronecker product of the
encoding of the full input vector with itself - the same four features are
encoded into both qutrits, with no partition into distinct chunks. -/
theorem kernelIris_joint_state_eq (x1 x2 : Fin 4 → ℝ) :
    kernelIris x1 x2 =
      ((star (entangleGate.mulVec (kronVec (encodingH x1) (encodingH x1))) ⬝ᵥ
        entangleGate.mulVec (kronVec (encodingH x2) (encodingH x2))) ^ 2).re := rfl

end Qutrit

namespace Qutrit

/-! ### Structure of the fixed operators: omega identities and Hadamard
unitarity -/

theorem omega_conj :
    (starRingEnd ℂ) (Complex.exp (2 * (Real.pi : ℂ) * Complex.I / 3)) =
      Complex.exp (-(2 * (Real.pi : ℂ) * Complex.I / 3)) := by
  have harg : 2 * (Real.pi : ℂ) * Complex.I / 3 =
      ((2 * Real.pi / 3 : ℝ) : ℂ) * Complex.I := by
    push_cast
    ring
  rw [harg, ← Complex.exp_conj, RingHom.map_mul, Complex.conj_I, Complex.conj_ofReal]
  congr 1
  push_cast
  ring

theorem omega_mul_inv :
    Complex.exp (2 * (Real.pi : ℂ) * Complex.I / 3) *
      Complex.exp (-(2 * (Real.pi : ℂ) * Complex.I / 3)) = 1 := by
  rw [← Complex.exp_add]
  ring_nf
  exact Complex.exp_zero

theorem omega_cube :
    Complex.exp (2 * (Real.pi : ℂ) * Complex.I / 3) ^ 3 = 1 := by
  rw [← Complex.exp_nat_mul]
  have h : ((3 : ℕ) : ℂ) * (2 * (Real.pi : ℂ) * Complex.I / 3) =
      2 * Real.pi * Complex.I := by
    push_cast
    ring
  rw [h, Complex.exp_two_pi_mul_I]

theorem omega_ne_one :
    Complex.exp (2 * (Real.pi : ℂ) * Complex.I / 3) ≠ 1 := by
  have harg : (2 * (Real.pi : ℂ) * Complex.I / 3) =
      ((2 * Real.pi / 3 : ℝ) : ℂ) * Complex.I := by
    push_cast
    ring
  rw [harg]
  intro hone
  have him := congrArg Complex.im hone
  rw [Complex.exp_ofReal_mul_I_im, Complex.one_im] at him
  have hsin : Real.sin (2 * Real.pi / 3) > 0 := by
    apply Real.sin_pos_of_pos_of_lt_pi
    · positivity
    · nlinarith [Real.pi_pos]
  linarith

theorem omega_sum :
    1 + Complex.exp (2 * (Real.pi : ℂ) * Complex.I / 3) +
      Complex.exp (2 * (Real.pi : ℂ) * Complex.I / 3) ^ 2 = 0 := by
  have hfac : (Complex.exp (2 * (Real.pi : ℂ) * Complex.I / 3) - 1) *
      (1 + Complex.exp (2 * (Real.pi : ℂ) * Complex.I / 3) +
        Complex.exp (2 * (Real.pi : ℂ) * Complex.I / 3) ^ 2) =
      Complex.exp (2 * (Real.pi : ℂ) * Complex.I / 3) ^ 3 - 1 := by ring
  have h0 : (Complex.exp (2 * (Real.pi : ℂ) * Complex.I / 3) - 1) *
      (1 + Complex.exp (2 * (Real.pi : ℂ) * Complex.I / 3) +
        Complex.exp (2 * (Real.pi : ℂ) * Complex.I / 3) ^ 2) = 0 := by
    rw [hfac, omega_cube, sub_self]
  rcases mul_eq_zero.mp h0 with h | h
  · exact absurd (by linear_combination h) omega_ne_one
  · exact h

theorem omegab_eq_sq :
    Complex.exp (-(2 * (Real.pi : ℂ) * Complex.I / 3)) =
      Complex.exp (2 * (Real.pi : ℂ) * Complex.I / 3) ^ 2 := by
  calc Complex.exp (-(2 * (Real.pi : ℂ) * Complex.I / 3))
      = Complex.exp (2 * (Real.pi : ℂ) * Complex.I / 3) ^ 3 *
        Complex.exp (-(2 * (Real.pi : ℂ) * Complex.I / 3)) := by
        rw [omega_cube, one_mul]
    _ = Complex.exp (2 * (Real.pi : ℂ) * Complex.I / 3) ^ 2 *
        (Complex.exp (2 * (Real.pi : ℂ) * Complex.I / 3) *
          Complex.exp (-(2 * (Real.pi : ℂ) * Complex.I / 3))) := by ring
    _ = Complex.exp (2 * (Real.pi : ℂ) * Complex.I / 3) ^ 2 := by
        rw [omega_mul_inv, mul_one]

theorem H_unitary : H * Hᴴ = 1 := by
  have hsq : ((Real.sqrt 3 : ℝ) : ℂ) * ((Real.sqrt 3 : ℝ) : ℂ) = 3 := by
    norm_cast
    exact Real.mul_self_sqrt (by norm_num)
  have hA : ((Real.sqrt 3 : ℝ) : ℂ)⁻¹ * ((Real.sqrt 3 : ℝ) : ℂ)⁻¹ = 1 / 3 := by
    rw [← mul_inv, hsq]
    norm_num
  have hE := omega_cube
  have hC : 1 + Complex.exp (2 * (Real.pi : ℂ) * Complex.I / 3) +
      Complex.exp (2 * (Real.pi : ℂ) * Complex.I / 3) ^ 2 = 0 := omega_sum
  ext i j
  fin_cases i <;> fin_cases j <;>
    simp [H, Matrix.mul_apply, Matrix.conjTranspose_apply, Fin.sum_univ_three,
      Matrix.one_apply, omega_conj, Complex.conj_ofReal, vecHead, vecTail,
      omegab_eq_sq]
  · linear_combination (3 : ℂ) * hA
  · linear_combination ((Real.sqrt 3 : ℝ) : ℂ)⁻¹ * ((Real.sqrt 3 : ℝ) : ℂ)⁻¹ * hC +
      ((Real.sqrt 3 : ℝ) : ℂ)⁻¹ * ((Real.sqrt 3 : ℝ) : ℂ)⁻¹ *
        Complex.exp (2 * (Real.pi : ℂ) * Complex.I / 3) * hE
  · linear_combination ((Real.sqrt 3 : ℝ) : ℂ)⁻¹ * ((Real.sqrt 3 : ℝ) : ℂ)⁻¹ * hC +
      ((Real.sqrt 3 : ℝ) : ℂ)⁻¹ * ((Real.sqrt 3 : ℝ) : ℂ)⁻¹ *
        Complex.exp (2 * (Real.pi : ℂ) * Complex.I / 3) * hE
  · linear_combination ((Real.sqrt 3 : ℝ) : ℂ)⁻¹ * ((Real.sqrt 3 : ℝ) : ℂ)⁻¹ * hC
  · linear_combination (3 : ℂ) * hA + ((Real.sqrt 3 : ℝ) : ℂ)⁻¹ *
      ((Real.sqrt 3 : ℝ) : ℂ)⁻¹ *
      (Complex.exp (2 * (Real.pi : ℂ) * Complex.I / 3) ^ 3 + 2) * hE
  · linear_combination ((Real.sqrt 3 : ℝ) : ℂ)⁻¹ * ((Real.sqrt 3 : ℝ) : ℂ)⁻¹ * hC +
      ((Real.sqrt 3 : ℝ) : ℂ)⁻¹ * ((Real.sqrt 3 : ℝ) : ℂ)⁻¹ *
        (Complex.exp (2 * (Real.pi : ℂ) * Complex.I / 3) +
          Complex.exp (2 * (Real.pi : ℂ) * Complex.I / 3) ^ 2) * hE
  · linear_combination ((Real.sqrt 3 : ℝ) : ℂ)⁻¹ * ((Real.sqrt 3 : ℝ) : ℂ)⁻¹ * hC
  · linear_combination ((Real.sqrt 3 : ℝ) : ℂ)⁻¹ * ((Real.sqrt 3 : ℝ) : ℂ)⁻¹ * hC +
      ((Real.sqrt 3 : ℝ) : ℂ)⁻¹ * ((Real.sqrt 3 : ℝ) : ℂ)⁻¹ *
        (Complex.exp (2 * (Real.pi : ℂ) * Complex.I / 3) +
          Complex.exp (2 * (Real.pi : ℂ) * Complex.I / 3) ^ 2) * hE
  · linear_combination (3 : ℂ) * hA + ((Real.sqrt 3 : ℝ) : ℂ)⁻¹ *
      ((Real.sqrt 3 : ℝ) : ℂ)⁻¹ *
      (Complex.exp (2 * (Real.pi : ℂ) * Complex.I / 3) ^ 3 + 2) * hE

theorem gm1_tr : gm1.trace = 0 := by
  rw [gm1_eq]; simp [Matrix.trace, Matrix.diag, Fin.sum_univ_three, vecHead, vecTail]

theorem gm2_tr : gm2.trace = 0 := by
  rw [gm2_eq]; simp [Matrix.trace, Matrix.diag, Fin.sum_univ_three, vecHead, vecTail]

theorem gm3_tr : gm3.trace = 0 := by
  rw [gm3_eq]; simp [Matrix.trace, Matrix.diag, Fin.sum_univ_three,
    Matrix.diagonal, vecHead, vecTail]

theorem gm4_tr : gm4.trace = 0 := by
  rw [gm4_eq]; simp [Matrix.trace, Matrix.diag, Fin.sum_univ_three, vecHead, vecTail]

theorem gm5_tr : gm5.trace = 0 := by
  rw [gm5_eq]; simp [Matrix.trace, Matrix.diag, Fin.sum_univ_three, vecHead, vecTail]

theorem gm6_tr : gm6.trace = 0 := by
  rw [gm6_eq]; simp [Matrix.trace, Matrix.diag, Fin.sum_univ_three, vecHead, vecTail]

theorem gm7_tr : gm7.trace = 0 := by
  rw [gm7_eq]; simp [Matrix.trace, Matrix.diag, Fin.sum_univ_three, vecHead, vecTail]

theorem gm8_tr : gm8.trace = 0 := by
  rw [gm8_eq]
  simp only [Matrix.trace, Matrix.diag, Fin.sum_univ_three]
  simp [Matrix.diagonal, vecHead, vecTail]
  ring

theorem generators_traceless (k : Fin 8) : (generators k).trace = 0 := by
  fin_cases k
  · simpa [generators] using gm1_tr
  · simpa [generators] using gm2_tr
  · simpa [generators] using gm3_tr
  · simpa [generators] using gm4_tr
  · simpa [generators] using gm5_tr
  · simpa [generators] using gm6_tr
  · simpa [generators] using gm7_tr
  · simpa [generators] using gm8_tr

/-- C7: with basis vector `q0 = (1,0,0)`, the constructed generator `gm8`
equals the diagonal matrix `diag(1/sqrt 3, 1/sqrt 3, -2/sqrt 3)`, and
applying the qutrit Hadamard `H` to `q0` yields `(1/sqrt 3)*(1,1,1)`
exactly (hence in particular up to global phase). -/
theorem gm8_diag_and_H_q0 :
    gm8 = Matrix.diagonal
      ![(((Real.sqrt 3)⁻¹ : ℝ) : ℂ), (((Real.sqrt 3)⁻¹ : ℝ) : ℂ),
        -2 * (((Real.sqrt 3)⁻¹ : ℝ) : ℂ)] ∧
    H.mulVec q0 = fun _ => (((Real.sqrt 3)⁻¹ : ℝ) : ℂ) :=
  ⟨gm8_eq, Hq0_eq⟩

/-- C8: each generator `gm1 .. gm8` is Hermitian with trace zero; the qutrit
Hadamard satisfies `H * H+ = 1`; the entangling operator `LZZ2` is diagonal;
and its exponential `expm(1j*LZZ2)` is unitary. -/
theorem constants_structure :
    (∀ k : Fin 8, (generators k).IsHermitian ∧ (generators k).trace = 0) ∧
    H * Hᴴ = 1 ∧
    (∃ d : Fin 3 × Fin 3 → ℂ, LZZ2 = Matrix.diagonal d) ∧
    entangleGateᴴ * entangleGate = 1 ∧ entangleGate * entangleGateᴴ = 1 :=
  ⟨fun k => ⟨generators_hermitian k, generators_traceless k⟩, H_unitary,
    ⟨dLZZ, LZZ2_eq⟩, entangle_unitary.1, entangle_unitary.2⟩

/-- C9: the encoding loop indexes components 0 through 3 unconditionally, so
on an input list with fewer than 4 components the total embedding reaches
the out-of-bounds branch and returns `none` instead of an encoded state. -/
theorem encoding_short_input_none (v : List ℝ) (h : v.length < 4) :
    encodingList v = none := by
  have h3 : v[3]? = none := List.getElem?_eq_none (by omega)
  cases h0 : v[0]? <;> cases h1 : v[1]? <;> cases h2 : v[2]? <;>
    simp [encodingList, h0, h1, h2, h3]

/-- Witness for C9 at the concrete two-element list `[1, 2]`. -/
theorem encoding_short_input_none_witness :
    [(1 : ℝ), 2].length < 4 ∧ encodingList [(1 : ℝ), 2] = none :=
  ⟨by norm_num, encoding_short_input_none [(1 : ℝ), 2] (by norm_num)⟩

end Qutrit

namespace Qutrit

/-! ### Exact evaluation of the kernels on phase-only inputs -/

theorem exp_diagonal_c {n : Type*} [Fintype n] [DecidableEq n] (d : n → ℂ) :
    NormedSpace.exp ℂ (Matrix.diagonal d) =
      Matrix.diagonal (fun i => Complex.exp (d i)) := by
  have hv : NormedSpace.exp ℂ d = fun i => Complex.exp (d i) := by
    funext i
    rw [Pi.coe_exp, ← Complex.exp_eq_exp_ℂ]
  rw [Matrix.exp_diagonal, hv]

theorem smul_diag (c a b e : ℂ) :
    c • Matrix.diagonal ![a, b, e] = Matrix.diagonal ![c * a, c * b, c * e] := by
  rw [← Matrix.diagonal_smul]
  funext i
  fin_cases i <;> simp [vecHead, vecTail]

theorem gmSum_spike3 (t : ℝ) :
    gmSum lowSel ![0, 0, t, 0] = (Complex.I * (t : ℂ)) • gm3 := by
  unfold gmSum
  rw [Fin.sum_univ_four]
  show (Complex.I * ((0 : ℝ) : ℂ)) • gm1 + (Complex.I * ((0 : ℝ) : ℂ)) • gm2 +
    (Complex.I * (t : ℂ)) • gm3 + (Complex.I * ((0 : ℝ) : ℂ)) • gm4 = _
  norm_num

theorem gmSum_spike8 (t : ℝ) :
    gmSum highSel ![0, 0, 0, t] = (Complex.I * (t : ℂ)) • gm8 := by
  unfold gmSum
  rw [Fin.sum_univ_four]
  show (Complex.I * ((0 : ℝ) : ℂ)) • gm5 + (Complex.I * ((0 : ℝ) : ℂ)) • gm6 +
    (Complex.I * ((0 : ℝ) : ℂ)) • gm7 + (Complex.I * (t : ℂ)) • gm8 = _
  norm_num

theorem encoding_phase (t : ℝ) :
    encoding ![0, 0, t, 0] = ![Complex.exp (Complex.I * t), 0, 0] := by
  unfold encoding
  rw [gmSum_spike3, gm3_eq, smul_diag, exp_diagonal_c]
  funext i
  fin_cases i <;>
    simp [Matrix.mulVec_diagonal, q0, vecHead, vecTail]

theorem encodingWine_phase (t : ℝ) :
    encodingWine ![0, 0, 0, t] =
      ![Complex.exp (Complex.I * t * (((Real.sqrt 3)⁻¹ : ℝ) : ℂ)), 0, 0] := by
  unfold encodingWine
  rw [gmSum_spike8, gm8_eq, smul_diag, exp_diagonal_c]
  funext i
  fin_cases i <;>
    simp [Matrix.mulVec_diagonal, q0, vecHead, vecTail, mul_assoc]

theorem loHalf_spike (t u : ℝ) :
    loHalf ![0, 0, t, 0, 0, 0, u, 0] = ![0, 0, t, 0] := by
  funext i
  fin_cases i <;> rfl

theorem hiHalf_spike (t u : ℝ) :
    hiHalf ![0, 0, t, 0, 0, 0, u, 0] = ![0, 0, u, 0] := by
  funext i
  fin_cases i <;> rfl

/-- Counterexample input for the claim that kernel values lie in `[0, 1]`:
both encoded qutrits of the second argument pick up the relative phase
`pi/4`, so the inner product is `exp(i*pi/2) = i` and the kernel value is
`re(i^2) = -1`. -/
theorem kernelSeeds_neg_value :
    kernelSeeds ![0, 0, 0, 0, 0, 0, 0, 0]
      ![0, 0, Real.pi / 4, 0, 0, 0, Real.pi / 4, 0] = -1 := by
  unfold kernelSeeds psiSeeds
  rw [loHalf_spike 0 0, hiHalf_spike 0 0, loHalf_spike (Real.pi / 4) (Real.pi / 4),
    hiHalf_spike (Real.pi / 4) (Real.pi / 4),
    unitary_dot entangleGate entangle_unitary.1, kronVec_dot,
    encoding_phase 0, encoding_phase (Real.pi / 4)]
  simp only [dotProduct, Fin.sum_univ_three, Pi.star_apply, Matrix.cons_val_zero,
    Matrix.cons_val_one, Matrix.head_cons, Matrix.cons_val_two, Matrix.tail_cons,
    Complex.ofReal_zero, mul_zero, Complex.exp_zero, star_one, one_mul,
    mul_one, star_zero, zero_mul, add_zero, zero_add, Fin.isValue]
  rw [← Complex.exp_add, sq, ← Complex.exp_add]
  have harg : Complex.I * (Real.pi / 4 : ℝ) + Complex.I * (Real.pi / 4 : ℝ) +
      (Complex.I * (Real.pi / 4 : ℝ) + Complex.I * (Real.pi / 4 : ℝ)) =
      (Real.pi : ℂ) * Complex.I := by
    push_cast
    ring
  rw [harg, Complex.exp_pi_mul_I]
  norm_num

end Qutrit

namespace Qutrit

/-! ### The Wine kernel versus the kernel the spec describes -/

theorem chunk1_wine_spike :
    chunk1 ![0, 0, 0, 0, 0, 0, 0, Real.sqrt 3 * (Real.pi / 4), 0, 0, 0, 0] =
      ![0, 0, 0, 0] := by
  funext i
  fin_cases i <;> rfl

theorem chunk2_wine_spike :
    chunk2 ![0, 0, 0, 0, 0, 0, 0, Real.sqrt 3 * (Real.pi / 4), 0, 0, 0, 0] =
      ![0, 0, 0, Real.sqrt 3 * (Real.pi / 4)] := by
  funext i
  fin_cases i <;> rfl

theorem chunk3_wine_spike :
    chunk3 ![0, 0, 0, 0, 0, 0, 0, Real.sqrt 3 * (Real.pi / 4), 0, 0, 0, 0] =
      ![0, 0, 0, 0] := by
  funext i
  fin_cases i <;> rfl

theorem chunk1_zero12 :
    chunk1 ![0, 0, 0, 0, 0, 0, 0, 0, 0, 0, 0, 0] = ![0, 0, 0, 0] := by
  funext i
  fin_cases i <;> rfl

theorem chunk2_zero12 :
    chunk2 ![0, 0, 0, 0, 0, 0, 0, 0, 0, 0, 0, 0] = ![0, 0, 0, 0] := by
  funext i
  fin_cases i <;> rfl

theorem chunk3_zero12 :
    chunk3 ![0, 0, 0, 0, 0, 0, 0, 0, 0, 0, 0, 0] = ![0, 0, 0, 0] := by
  funext i
  fin_cases i <;> rfl

theorem encodingWine_zero4 : encodingWine ![0, 0, 0, 0] = ![1, 0, 0] := by
  rw [encodingWine_phase 0]
  norm_num

theorem encodingWine_pi4 :
    encodingWine ![0, 0, 0, Real.sqrt 3 * (Real.pi / 4)] =
      ![Complex.exp (Complex.I * ((Real.pi / 4 : ℝ) : ℂ)), 0, 0] := by
  rw [encodingWine_phase (Real.sqrt 3 * (Real.pi / 4))]
  have harg : Complex.I * ((Real.sqrt 3 * (Real.pi / 4) : ℝ) : ℂ) *
      (((Real.sqrt 3)⁻¹ : ℝ) : ℂ) = Complex.I * ((Real.pi / 4 : ℝ) : ℂ) := by
    have h : ((Real.sqrt 3 * (Real.pi / 4)) * (Real.sqrt 3)⁻¹ : ℝ) = Real.pi / 4 := by
      field_simp [Real.sqrt_ne_zero'.mpr (show (0 : ℝ) < 3 by norm_num)]
      ring
    calc Complex.I * ((Real.sqrt 3 * (Real.pi / 4) : ℝ) : ℂ) *
        (((Real.sqrt 3)⁻¹ : ℝ) : ℂ)
        = Complex.I * (((Real.sqrt 3 * (Real.pi / 4) * (Real.sqrt 3)⁻¹ : ℝ)) : ℂ) := by
          push_cast
          ring
      _ = Complex.I * ((Real.pi / 4 : ℝ) : ℂ) := by rw [h]
  rw [harg]

theorem dot_single_phase (e f : ℂ) :
    star (![e, 0, 0] : Fin 3 → ℂ) ⬝ᵥ ![f, 0, 0] = star e * f := by
  simp [dotProduct, Fin.sum_univ_three]

/-- C4: at the failing input pair (first argument all zeros, second argument
zero except feature 7 = sqrt(3)*pi/4), the Wine-notebook kernel as written
returns 1, because the only nonzero feature of the second argument sits in
its middle chunk and the code builds the middle and last chunks of the
second state from the first argument; the kernel the spec describes - whose
second state is built entirely from `x2` - returns 0 there. -/
theorem kernelWine_divergence_eval :
    kernelWine ![0, 0, 0, 0, 0, 0, 0, 0, 0, 0, 0, 0]
        ![0, 0, 0, 0, 0, 0, 0, Real.sqrt 3 * (Real.pi / 4), 0, 0, 0, 0] = 1 ∧
      kernelWineSpec ![0, 0, 0, 0, 0, 0, 0, 0, 0, 0, 0, 0]
        ![0, 0, 0, 0, 0, 0, 0, Real.sqrt 3 * (Real.pi / 4), 0, 0, 0, 0] = 0 := by
  constructor
  · unfold kernelWine
    dsimp only
    rw [chunk1_zero12, chunk2_zero12, chunk3_zero12, chunk1_wine_spike,
      encodingWine_zero4, kronVec3_dot]
    simp only [dot_single_phase]
    norm_num
  · unfold kernelWineSpec
    dsimp only
    rw [chunk1_zero12, chunk2_zero12, chunk3_zero12, chunk1_wine_spike,
      chunk2_wine_spike, chunk3_wine_spike, encodingWine_zero4,
      encodingWine_pi4, kronVec3_dot]
    simp only [dot_single_phase]
    simp only [star_one, one_mul, mul_one]
    rw [sq, ← Complex.exp_add]
    have harg : Complex.I * ((Real.pi / 4 : ℝ) : ℂ) +
        Complex.I * ((Real.pi / 4 : ℝ) : ℂ) =
        ((Real.pi / 2 : ℝ) : ℂ) * Complex.I := by
      push_cast
      ring
    rw [harg]
    rw [Complex.exp_ofReal_mul_I_re]
    exact Real.cos_pi_div_two

end Qutrit

namespace Qutrit

/-! ### Cauchy-Schwarz bound on kernel values -/

theorem dot_abs_le {ι : Type*} [Fintype ι] (x y : ι → ℂ)
    (hx : star x ⬝ᵥ x = 1) (hy : star y ⬝ᵥ y = 1) :
    Complex.abs (star x ⬝ᵥ y) ≤ 1 := by
  have hix : (inner ((WithLp.equiv 2 (ι → ℂ)).symm x)
      ((WithLp.equiv 2 (ι → ℂ)).symm x) : ℂ) = 1 := by
    rw [EuclideanSpace.inner_piLp_equiv_symm, hx]
  have hiy : (inner ((WithLp.equiv 2 (ι → ℂ)).symm y)
      ((WithLp.equiv 2 (ι → ℂ)).symm y) : ℂ) = 1 := by
    rw [EuclideanSpace.inner_piLp_equiv_symm, hy]
  have hnx : ‖(WithLp.equiv 2 (ι → ℂ)).symm x‖ = 1 := by
    have h1 := inner_self_eq_norm_sq (𝕜 := ℂ) ((WithLp.equiv 2 (ι → ℂ)).symm x)
    rw [hix] at h1
    simp only [RCLike.one_re] at h1
    nlinarith [norm_nonneg ((WithLp.equiv 2 (ι → ℂ)).symm x)]
  have hny : ‖(WithLp.equiv 2 (ι → ℂ)).symm y‖ = 1 := by
    have h1 := inner_self_eq_norm_sq (𝕜 := ℂ) ((WithLp.equiv 2 (ι → ℂ)).symm y)
    rw [hiy] at h1
    simp only [RCLike.one_re] at h1
    nlinarith [norm_nonneg ((WithLp.equiv 2 (ι → ℂ)).symm y)]
  have hcs := norm_inner_le_norm (𝕜 := ℂ) ((WithLp.equiv 2 (ι → ℂ)).symm x)
    ((WithLp.equiv 2 (ι → ℂ)).symm y)
  rw [hnx, hny, mul_one, EuclideanSpace.inner_piLp_equiv_symm] at hcs
  simpa [Complex.norm_eq_abs] using hcs

theorem re_sq_bounds (c : ℂ) (h : Complex.abs c ≤ 1) :
    -1 ≤ (c ^ 2).re ∧ (c ^ 2).re ≤ 1 := by
  have habs : Complex.abs (c ^ 2) ≤ 1 := by
    rw [map_pow]
    exact pow_le_one₀ (AbsoluteValue.nonneg _ c) h
  have hre : |(c ^ 2).re| ≤ Complex.abs (c ^ 2) := Complex.abs_re_le_abs _
  exact abs_le.mp (hre.trans habs)

theorem psiIris_unit (x : Fin 4 → ℝ) :
    star (entangleGate.mulVec (kronVec (encodingH x) (encodingH x))) ⬝ᵥ
      entangleGate.mulVec (kronVec (encodingH x) (encodingH x)) = 1 := by
  rw [unitary_dot _ entangle_unitary.1, kronVec_dot, encodingH_unit]
  norm_num

theorem kron3_encW_unit (u v w : Fin 4 → ℝ) :
    star (kronVec3 (encodingWine u) (encodingWine v) (encodingWine w)) ⬝ᵥ
      kronVec3 (encodingWine u) (encodingWine v) (encodingWine w) = 1 := by
  rw [kronVec3_dot, encodingWine_unit, encodingWine_unit, encodingWine_unit]
  norm_num

/-- C2 (amended): each kernel variant always returns a real number in the
closed interval `[-1, 1]` (not `[0, 1]`): the inner product of the two unit
joint states has modulus at most 1, and the real part of its square lies in
`[-1, 1]`. -/
theorem kernel_bounds :
    (∀ x1 x2 : Fin 8 → ℝ, -1 ≤ kernelSeeds x1 x2 ∧ kernelSeeds x1 x2 ≤ 1) ∧
    (∀ x1 x2 : Fin 8 → ℝ, -1 ≤ kernelGlass x1 x2 ∧ kernelGlass x1 x2 ≤ 1) ∧
    (∀ x1 x2 : Fin 4 → ℝ, -1 ≤ kernelIris x1 x2 ∧ kernelIris x1 x2 ≤ 1) ∧
    (∀ x1 x2 : Fin 12 → ℝ, -1 ≤ kernelWine x1 x2 ∧ kernelWine x1 x2 ≤ 1) := by
  refine ⟨fun x1 x2 => ?_, fun x1 x2 => ?_, fun x1 x2 => ?_, fun x1 x2 => ?_⟩
  · exact re_sq_bounds _ (dot_abs_le _ _ (psiSeeds_unit x1) (psiSeeds_unit x2))
  · exact re_sq_bounds _ (dot_abs_le _ _ (psiGlass_unit x1) (psiGlass_unit x2))
  · exact re_sq_bounds _ (dot_abs_le _ _ (psiIris_unit x1) (psiIris_unit x2))
  · exact re_sq_bounds _ (dot_abs_le _ _
      (kron3_encW_unit (chunk1 x1) (chunk2 x1) (chunk3 x1))
      (kron3_encW_unit (chunk1 x2) (chunk2 x1) (chunk3 x1)))

/-- C2 counterexample: at the concrete input pair `x1 = 0` and
`x2 = (0,0,pi/4,0,0,0,pi/4,0)` the Seeds-notebook kernel evaluates to `-1`,
which is negative, so the kernel value does not always lie in `[0, 1]`. -/
theorem kernel_unit_interval_counterexample :
    kernelSeeds ![0, 0, 0, 0, 0, 0, 0, 0]
        ![0, 0, Real.pi / 4, 0, 0, 0, Real.pi / 4, 0] = -1 ∧
      ((-1 : ℝ) < 0) :=
  ⟨kernelSeeds_neg_value, by norm_num⟩

end Qutrit
